import Mathlib

/-!
Verification of the `tessworkshop_tutorials` StarspotMapping notebook.

The notebook (`src/starry/StarspotMapping.ipynb`) is procedural glue around a
linear Bayesian MAP solver that lives in the companion module
`workshop_utils` (part of the repository but not shipped with the notebook).
The solver's mathematical contract is fixed by the spec:
  ŷ = (AᵀA + σ²Λ⁻¹)⁻¹ Aᵀf,   Var(ŷ) = σ² (AᵀA + σ²Λ⁻¹)⁻¹,
where an infinite Λ entry contributes zero to σ²Λ⁻¹, failing with
DimensionMismatch on inconsistent shapes and SingularMatrix when the
regularized normal-equations matrix is not invertible.

We embed the solver over ℚ (exact arithmetic), with a prior entry modelled
as `Option ℚ`: `some v` is a finite variance, `none` is `+∞` (`np.inf` in
the notebook).  The in-notebook code (the prior vector `lam`, the
out-of-transit masking `xo[zo < 0] = -np.inf`, `power_true`) is embedded
directly from the source.
-/

namespace Starspot

open Matrix

/-- Matrices over `Fin` index types have decidable equality. -/
instance {n m : ℕ} : DecidableEq (Matrix (Fin n) (Fin m) ℚ) :=
  inferInstanceAs (DecidableEq (Fin n → Fin m → ℚ))

/-- Equality of `Except` results is decidable. -/
instance {ε α : Type} [DecidableEq ε] [DecidableEq α] : DecidableEq (Except ε α) :=
  fun x y =>
  match x, y with
  | .error e, .error e' =>
    if h : e = e' then isTrue (h ▸ rfl) else isFalse fun hc => h (Except.error.inj hc)
  | .ok a, .ok a' =>
    if h : a = a' then isTrue (h ▸ rfl) else isFalse fun hc => h (Except.ok.inj hc)
  | .error _, .ok _ => isFalse fun hc => Except.noConfusion hc
  | .ok _, .error _ => isFalse fun hc => Except.noConfusion hc

/-- Error taxonomy of the MAP solver (spec §7). `InvalidPrior` belongs to the
taxonomy but §4.1 routes degenerate priors to `SingularMatrix`. -/
inductive SolverError : Type
  | DimensionMismatch
  | SingularMatrix
  | InvalidPrior
  deriving DecidableEq

/-- Modelled from the spec: the diagonal of Λ⁻¹, where an infinite prior
variance (`none`) contributes exactly zero rather than `1/∞`
(spec §4.1 numerical policy; `workshop_utils.MAP` is not in the repository
snapshot). -/
def lamInv : Option ℚ → ℚ
  | none => 0
  | some v => v⁻¹

/-- Computable matrix inverse over ℚ; agrees with Mathlib's `⁻¹`. -/
def minv {n : ℕ} (M : Matrix (Fin n) (Fin n) ℚ) : Matrix (Fin n) (Fin n) ℚ :=
  M.det⁻¹ • M.adjugate

theorem minv_eq_inv {n : ℕ} (M : Matrix (Fin n) (Fin n) ℚ) : minv M = M⁻¹ := by
  rw [Matrix.inv_def, Ring.inverse_eq_inv']
  rfl

theorem minv_mul {n : ℕ} {M : Matrix (Fin n) (Fin n) ℚ} (h : M.det ≠ 0) :
    minv M * M = 1 := by
  rw [minv_eq_inv]
  exact Matrix.nonsing_inv_mul M (isUnit_iff_ne_zero.mpr h)

theorem mul_minv {n : ℕ} {M : Matrix (Fin n) (Fin n) ℚ} (h : M.det ≠ 0) :
    M * minv M = 1 := by
  rw [minv_eq_inv]
  exact Matrix.mul_nonsing_inv M (isUnit_iff_ne_zero.mpr h)

/-- The regularized normal-equations matrix `AᵀA + D` for a regularization
diagonal `D = diagonal d` (spec §4.1, with `d` standing for σ²Λ⁻¹). -/
def regMd {T N : ℕ} (A : Matrix (Fin T) (Fin N) ℚ) (d : Fin N → ℚ) :
    Matrix (Fin N) (Fin N) ℚ :=
  Aᵀ * A + Matrix.diagonal d

/-- Modelled from the spec: core of `workshop_utils.MAP` (absent from the
repository snapshot), generalized over the regularization diagonal `d`.
Returns the posterior mean and covariance, or `SingularMatrix` when
`AᵀA + diagonal d` is not invertible (spec §4.1). -/
def MAPd {T N : ℕ} (A : Matrix (Fin T) (Fin N) ℚ) (f : Fin T → ℚ) (σ : ℚ)
    (d : Fin N → ℚ) :
    Except SolverError ((Fin N → ℚ) × Matrix (Fin N) (Fin N) ℚ) :=
  if (regMd A d).det = 0 then .error .SingularMatrix
  else .ok (minv (regMd A d) *ᵥ (Aᵀ *ᵥ f), σ ^ 2 • minv (regMd A d))

/-- The diagonal of σ²Λ⁻¹ (spec §4.1), an infinite Λ entry contributing 0. -/
def priorDiag {N : ℕ} (σ : ℚ) (prior : Fin N → Option ℚ) : Fin N → ℚ :=
  fun i => σ ^ 2 * lamInv (prior i)

/-- Modelled from the spec: `workshop_utils.MAP` on dimensionally consistent
inputs: ŷ = (AᵀA + σ²Λ⁻¹)⁻¹ Aᵀf and Var(ŷ) = σ² (AᵀA + σ²Λ⁻¹)⁻¹
(spec §4.1). -/
def MAP {T N : ℕ} (A : Matrix (Fin T) (Fin N) ℚ) (f : Fin T → ℚ) (σ : ℚ)
    (prior : Fin N → Option ℚ) :
    Except SolverError ((Fin N → ℚ) × Matrix (Fin N) (Fin N) ℚ) :=
  MAPd A f σ (priorDiag σ prior)

/-- The regularized normal-equations matrix `AᵀA + σ²Λ⁻¹` of `MAP`. -/
def regM {T N : ℕ} (A : Matrix (Fin T) (Fin N) ℚ) (σ : ℚ)
    (prior : Fin N → Option ℚ) : Matrix (Fin N) (Fin N) ℚ :=
  regMd A (priorDiag σ prior)

/-- Inversion principle: what a successful `MAP` call returns. -/
theorem MAP_ok_inv {T N : ℕ} {A : Matrix (Fin T) (Fin N) ℚ} {f : Fin T → ℚ}
    {σ : ℚ} {prior : Fin N → Option ℚ} {yhat : Fin N → ℚ}
    {yvar : Matrix (Fin N) (Fin N) ℚ}
    (hok : MAP A f σ prior = .ok (yhat, yvar)) :
    (regM A σ prior).det ≠ 0 ∧
      yhat = minv (regM A σ prior) *ᵥ (Aᵀ *ᵥ f) ∧
      yvar = σ ^ 2 • minv (regM A σ prior) := by
  unfold MAP MAPd at hok
  unfold regM
  split at hok
  · exact absurd hok (by simp)
  · next h =>
    simp only [Except.ok.injEq, Prod.mk.injEq] at hok
    exact ⟨h, hok.1.symm, hok.2.symm⟩

/-- Evaluation of `MAP` on an identity design matrix with an all-infinite prior. -/
theorem MAP_one_none {n : ℕ} (f : Fin n → ℚ) (σ : ℚ) :
    MAP (1 : Matrix (Fin n) (Fin n) ℚ) f σ (fun _ => none) = .ok (f, σ ^ 2 • 1) := by
  have h1 : priorDiag σ (fun _ : Fin n => (none : Option ℚ)) = fun _ => 0 := by
    funext i
    simp [priorDiag, lamInv]
  have hdiag0 : Matrix.diagonal (fun _ : Fin n => (0 : ℚ)) = 0 := Matrix.diagonal_zero
  have hreg : regMd (1 : Matrix (Fin n) (Fin n) ℚ) (fun _ : Fin n => (0 : ℚ)) = 1 := by
    unfold regMd
    rw [hdiag0, add_zero, Matrix.transpose_one, Matrix.one_mul]
  have hinv1 : (1 : Matrix (Fin n) (Fin n) ℚ)⁻¹ = 1 :=
    Matrix.inv_eq_right_inv (Matrix.one_mul 1)
  unfold MAP MAPd
  rw [h1, hreg, Matrix.det_one, if_neg one_ne_zero, minv_eq_inv, hinv1,
    Matrix.transpose_one, Matrix.one_mulVec, Matrix.one_mulVec]

/-! ### Positive semidefiniteness over ℚ -/

/-- Symmetric positive semidefinite rational matrix (spec §4.1 output
contract for `Var(ŷ)`). -/
def PosSemidefQ {n : ℕ} (M : Matrix (Fin n) (Fin n) ℚ) : Prop :=
  Mᵀ = M ∧ ∀ x : Fin n → ℚ, 0 ≤ x ⬝ᵥ (M *ᵥ x)

theorem psd_gram {T N : ℕ} (A : Matrix (Fin T) (Fin N) ℚ) : PosSemidefQ (Aᵀ * A) := by
  constructor
  · rw [Matrix.transpose_mul, Matrix.transpose_transpose]
  · intro x
    rw [← Matrix.mulVec_mulVec, Matrix.dotProduct_mulVec, Matrix.vecMul_transpose]
    exact Finset.sum_nonneg fun i _ => mul_self_nonneg _

theorem psd_diagonal {n : ℕ} (d : Fin n → ℚ) (hd : ∀ i, 0 ≤ d i) :
    PosSemidefQ (Matrix.diagonal d) := by
  refine ⟨Matrix.diagonal_transpose d, fun x => ?_⟩
  have h : x ⬝ᵥ (Matrix.diagonal d *ᵥ x) = ∑ i, d i * (x i * x i) := by
    unfold Matrix.dotProduct
    refine Finset.sum_congr rfl fun i _ => ?_
    rw [Matrix.mulVec_diagonal]
    ring
  rw [h]
  exact Finset.sum_nonneg fun i _ => mul_nonneg (hd i) (mul_self_nonneg _)

theorem psd_add {n : ℕ} {M₁ M₂ : Matrix (Fin n) (Fin n) ℚ}
    (h₁ : PosSemidefQ M₁) (h₂ : PosSemidefQ M₂) : PosSemidefQ (M₁ + M₂) := by
  refine ⟨by rw [Matrix.transpose_add, h₁.1, h₂.1], fun x => ?_⟩
  rw [Matrix.add_mulVec, Matrix.dotProduct_add]
  exact add_nonneg (h₁.2 x) (h₂.2 x)

theorem psd_smul {n : ℕ} {M : Matrix (Fin n) (Fin n) ℚ} (c : ℚ) (hc : 0 ≤ c)
    (h : PosSemidefQ M) : PosSemidefQ (c • M) := by
  refine ⟨by rw [Matrix.transpose_smul, h.1], fun x => ?_⟩
  rw [Matrix.smul_mulVec_assoc, Matrix.dotProduct_smul, smul_eq_mul]
  exact mul_nonneg hc (h.2 x)

/-- Congruence `S * C * S` by a symmetric `S` preserves positive
semidefiniteness. -/
theorem psd_congr {n : ℕ} (S C : Matrix (Fin n) (Fin n) ℚ) (hS : Sᵀ = S)
    (hC : PosSemidefQ C) : PosSemidefQ (S * C * S) := by
  constructor
  · rw [Matrix.transpose_mul, Matrix.transpose_mul, hS, hC.1, Matrix.mul_assoc]
  · intro x
    have hv : x ᵥ* S = S *ᵥ x := by
      conv_lhs => rw [← hS]
      rw [Matrix.vecMul_transpose]
    have hm : (S * C * S) *ᵥ x = S *ᵥ (C *ᵥ (S *ᵥ x)) := by
      rw [Matrix.mulVec_mulVec, Matrix.mulVec_mulVec]
    rw [hm, Matrix.dotProduct_mulVec, hv]
    exact hC.2 (S *ᵥ x)

theorem symm_minv {n : ℕ} {M : Matrix (Fin n) (Fin n) ℚ} (hM : Mᵀ = M) :
    (minv M)ᵀ = minv M := by
  rw [minv_eq_inv, Matrix.transpose_nonsing_inv, hM]

theorem psd_minv {n : ℕ} {M : Matrix (Fin n) (Fin n) ℚ} (hM : PosSemidefQ M)
    (hdet : M.det ≠ 0) : PosSemidefQ (minv M) := by
  have key : minv M * M * minv M = minv M := by
    rw [Matrix.mul_assoc, mul_minv hdet, Matrix.mul_one]
  rw [← key]
  exact psd_congr (minv M) M (symm_minv hM.1) hM

theorem psd_diag_nonneg {n : ℕ} {P : Matrix (Fin n) (Fin n) ℚ}
    (h : PosSemidefQ P) (i : Fin n) : 0 ≤ P i i := by
  have hx := h.2 (Pi.single i 1)
  rwa [Matrix.mulVec_single, Matrix.single_dotProduct, mul_one, one_mul] at hx

/-- The regularization diagonal entries σ²/λᵢ are nonnegative for a valid
prior. -/
theorem priorDiag_nonneg {N : ℕ} (σ : ℚ) (prior : Fin N → Option ℚ)
    (hprior : ∀ i v, prior i = some v → 0 < v) (i : Fin N) :
    0 ≤ priorDiag σ prior i := by
  unfold priorDiag
  rcases hp : prior i with _ | v
  · simp [lamInv]
  · exact mul_nonneg (sq_nonneg σ) (le_of_lt (inv_pos.mpr (hprior i v hp)))

/-- The regularized normal-equations matrix is symmetric PSD for a valid
prior. -/
theorem psd_regM {T N : ℕ} (A : Matrix (Fin T) (Fin N) ℚ) (σ : ℚ)
    (prior : Fin N → Option ℚ) (hprior : ∀ i v, prior i = some v → 0 < v) :
    PosSemidefQ (regM A σ prior) :=
  psd_add (psd_gram A) (psd_diagonal _ (priorDiag_nonneg σ prior hprior))

/-! ### Claims C1–C5: the solver formulas -/

/-- The regularized matrix written in the spec's form `AᵀA + σ² • Λ⁻¹`. -/
theorem regM_smul_diag {T N : ℕ} (A : Matrix (Fin T) (Fin N) ℚ) (σ : ℚ)
    (prior : Fin N → Option ℚ) :
    regM A σ prior = Aᵀ * A + σ ^ 2 • Matrix.diagonal fun i => lamInv (prior i) := by
  unfold regM regMd priorDiag
  rw [show (fun i => σ ^ 2 * lamInv (prior i)) = σ ^ 2 • fun i => lamInv (prior i) from rfl,
    Matrix.diagonal_smul]

/-- C1: whenever the solver returns, the posterior mean it returns equals
ŷ = (AᵀA + σ²Λ⁻¹)⁻¹ Aᵀf, an infinite Λ entry contributing zero to σ²Λ⁻¹
(`lamInv none = 0`). -/
theorem MAP_mean_formula {T N : ℕ} (A : Matrix (Fin T) (Fin N) ℚ) (f : Fin T → ℚ)
    (σ : ℚ) (prior : Fin N → Option ℚ) (hσ : 0 < σ)
    (hprior : ∀ i v, prior i = some v → 0 < v)
    (yhat : Fin N → ℚ) (yvar : Matrix (Fin N) (Fin N) ℚ)
    (hok : MAP A f σ prior = .ok (yhat, yvar)) :
    yhat = (Aᵀ * A + σ ^ 2 • Matrix.diagonal fun i => lamInv (prior i))⁻¹ *ᵥ (Aᵀ *ᵥ f) := by
  obtain ⟨hdet, hmean, hcov⟩ := MAP_ok_inv hok
  rw [hmean, minv_eq_inv, regM_smul_diag]

theorem MAP_mean_formula_witness :
    (0 : ℚ) < 1 ∧
      ![2] = ((1 : Matrix (Fin 1) (Fin 1) ℚ)ᵀ * 1 +
          (1 : ℚ) ^ 2 • Matrix.diagonal fun i : Fin 1 =>
            lamInv ((fun _ : Fin 1 => (none : Option ℚ)) i))⁻¹ *ᵥ
          ((1 : Matrix (Fin 1) (Fin 1) ℚ)ᵀ *ᵥ ![2]) :=
  ⟨one_pos,
    MAP_mean_formula 1 ![2] 1 (fun _ => none) one_pos
      (fun _ _ h => Option.noConfusion h) ![2] ((1 : ℚ) ^ 2 • 1) (MAP_one_none ![2] 1)⟩

/-- C2: whenever the solver returns, the posterior covariance it returns
equals Var(ŷ) = σ² (AᵀA + σ²Λ⁻¹)⁻¹, an N×N matrix. -/
theorem MAP_cov_formula {T N : ℕ} (A : Matrix (Fin T) (Fin N) ℚ) (f : Fin T → ℚ)
    (σ : ℚ) (prior : Fin N → Option ℚ) (hσ : 0 < σ)
    (hprior : ∀ i v, prior i = some v → 0 < v)
    (yhat : Fin N → ℚ) (yvar : Matrix (Fin N) (Fin N) ℚ)
    (hok : MAP A f σ prior = .ok (yhat, yvar)) :
    yvar = σ ^ 2 • (Aᵀ * A + σ ^ 2 • Matrix.diagonal fun i => lamInv (prior i))⁻¹ := by
  obtain ⟨hdet, hmean, hcov⟩ := MAP_ok_inv hok
  rw [hcov, minv_eq_inv, regM_smul_diag]

theorem MAP_cov_formula_witness :
    (0 : ℚ) < 2 ∧
      ((2 : ℚ) ^ 2 • 1 : Matrix (Fin 1) (Fin 1) ℚ) =
        (2 : ℚ) ^ 2 • ((1 : Matrix (Fin 1) (Fin 1) ℚ)ᵀ * 1 +
          (2 : ℚ) ^ 2 • Matrix.diagonal fun i : Fin 1 =>
            lamInv ((fun _ : Fin 1 => (none : Option ℚ)) i))⁻¹ :=
  ⟨by norm_num,
    MAP_cov_formula 1 ![3] 2 (fun _ => none) (by norm_num)
      (fun _ _ h => Option.noConfusion h) ![3] ((2 : ℚ) ^ 2 • 1) (MAP_one_none ![3] 2)⟩

/-- C3: on every valid input on which the solver succeeds, the returned
covariance matrix is symmetric and positive semidefinite. -/
theorem MAP_cov_psd {T N : ℕ} (A : Matrix (Fin T) (Fin N) ℚ) (f : Fin T → ℚ)
    (σ : ℚ) (prior : Fin N → Option ℚ) (hσ : 0 < σ)
    (hprior : ∀ i v, prior i = some v → 0 < v)
    (yhat : Fin N → ℚ) (yvar : Matrix (Fin N) (Fin N) ℚ)
    (hok : MAP A f σ prior = .ok (yhat, yvar)) :
    yvar.IsSymm ∧ ∀ x : Fin N → ℚ, 0 ≤ x ⬝ᵥ (yvar *ᵥ x) := by
  obtain ⟨hdet, hmean, hcov⟩ := MAP_ok_inv hok
  have hpsd : PosSemidefQ yvar := by
    rw [hcov]
    exact psd_smul _ (sq_nonneg σ) (psd_minv (psd_regM A σ prior hprior) hdet)
  exact ⟨hpsd.1, hpsd.2⟩

theorem MAP_cov_psd_witness :
    (0 : ℚ) < 3 ∧
      (((3 : ℚ) ^ 2 • 1 : Matrix (Fin 1) (Fin 1) ℚ).IsSymm ∧
        ∀ x : Fin 1 → ℚ, 0 ≤ x ⬝ᵥ (((3 : ℚ) ^ 2 • 1 : Matrix (Fin 1) (Fin 1) ℚ) *ᵥ x)) :=
  ⟨by norm_num,
    MAP_cov_psd 1 ![5] 3 (fun _ => none) (by norm_num)
      (fun _ _ h => Option.noConfusion h) ![5] ((3 : ℚ) ^ 2 • 1) (MAP_one_none ![5] 3)⟩

/-- C4: with noiseless data f = A·y, an all-infinite prior and a design
matrix of full column rank, the solver succeeds and recovers exactly y. -/
theorem MAP_noiseless_roundtrip {T N : ℕ} (A : Matrix (Fin T) (Fin N) ℚ)
    (y : Fin N → ℚ) (σ : ℚ) (hσ : 0 < σ)
    (hrank : ∀ v : Fin N → ℚ, A *ᵥ v = 0 → v = 0) :
    ∃ yvar, MAP A (A *ᵥ y) σ (fun _ => none) = .ok (y, yvar) := by
  have hpd : priorDiag σ (fun _ : Fin N => (none : Option ℚ)) = fun _ => 0 := by
    funext i
    simp [priorDiag, lamInv]
  have hdiag0 : Matrix.diagonal (fun _ : Fin N => (0 : ℚ)) = 0 := Matrix.diagonal_zero
  have hreg : regMd A (priorDiag σ (fun _ : Fin N => (none : Option ℚ))) = Aᵀ * A := by
    unfold regMd
    rw [hpd, hdiag0, add_zero]
  have hdet : (Aᵀ * A).det ≠ 0 := by
    intro h0
    obtain ⟨v, hv0, hv⟩ := (Matrix.exists_mulVec_eq_zero_iff).mpr h0
    have hq : v ⬝ᵥ ((Aᵀ * A) *ᵥ v) = (A *ᵥ v) ⬝ᵥ (A *ᵥ v) := by
      rw [← Matrix.mulVec_mulVec, Matrix.dotProduct_mulVec, Matrix.vecMul_transpose]
    rw [hv, Matrix.dotProduct_zero] at hq
    have hAv : A *ᵥ v = 0 := by
      funext i
      have hterm := (Finset.sum_eq_zero_iff_of_nonneg
        (fun j _ => mul_self_nonneg ((A *ᵥ v) j))).mp hq.symm i (Finset.mem_univ i)
      exact mul_self_eq_zero.mp hterm
    exact hv0 (hrank v hAv)
  refine ⟨σ ^ 2 • minv (Aᵀ * A), ?_⟩
  unfold MAP MAPd
  rw [hreg, if_neg hdet]
  have hy : minv (Aᵀ * A) *ᵥ (Aᵀ *ᵥ (A *ᵥ y)) = y := by
    rw [Matrix.mulVec_mulVec, Matrix.mulVec_mulVec, Matrix.mul_assoc, minv_mul hdet,
      Matrix.one_mulVec]
  rw [hy]

theorem MAP_noiseless_roundtrip_witness :
    (0 : ℚ) < 1 ∧
      ∃ yvar, MAP (1 : Matrix (Fin 2) (Fin 2) ℚ)
        ((1 : Matrix (Fin 2) (Fin 2) ℚ) *ᵥ ![3, 5]) 1 (fun _ => none) =
          .ok (![3, 5], yvar) :=
  ⟨one_pos,
    MAP_noiseless_roundtrip 1 ![3, 5] 1 one_pos
      (fun v h => by rwa [Matrix.one_mulVec] at h)⟩

/-- C5: an infinite Λ entry contributes exactly zero to the regularization
diagonal σ²Λ⁻¹, and the solve coincides with the solve in which that
diagonal entry is replaced by 0. -/
theorem MAP_inf_prior_zero_reg {T N : ℕ} (A : Matrix (Fin T) (Fin N) ℚ)
    (f : Fin T → ℚ) (σ : ℚ) (prior : Fin N → Option ℚ) (i : Fin N)
    (hinf : prior i = none) :
    priorDiag σ prior i = 0 ∧
      MAP A f σ prior = MAPd A f σ (Function.update (priorDiag σ prior) i 0) := by
  have h0 : priorDiag σ prior i = 0 := by
    simp [priorDiag, hinf, lamInv]
  refine ⟨h0, ?_⟩
  have hupd : Function.update (priorDiag σ prior) i 0 = priorDiag σ prior := by
    conv_lhs => rw [← h0]
    rw [Function.update_eq_self]
  unfold MAP
  rw [hupd]

theorem MAP_inf_prior_zero_reg_witness :
    priorDiag 1 (fun _ : Fin 1 => (none : Option ℚ)) 0 = 0 ∧
      MAP (1 : Matrix (Fin 1) (Fin 1) ℚ) ![0] 1 (fun _ => none) =
        MAPd 1 ![0] 1 (Function.update (priorDiag 1 fun _ : Fin 1 => (none : Option ℚ)) 0 0) :=
  MAP_inf_prior_zero_reg 1 ![0] 1 (fun _ => none) 0 rfl

/-! ### Claim C6: shape checking and error surfacing -/

/-- A list-of-rows design matrix as a `Fin`-indexed matrix (entries read with
`getD`; rows are exactly length `N` whenever the dimension check passed). -/
def toMatrix (A : List (List ℚ)) (N : ℕ) : Matrix (Fin A.length) (Fin N) ℚ :=
  Matrix.of fun i j => (A.get i).getD j 0

/-- A list as a `Fin`-indexed vector. -/
def toVec (f : List ℚ) (T : ℕ) : Fin T → ℚ :=
  fun i => f.getD i 0

/-- A prior list as a `Fin`-indexed prior. -/
def toPrior (prior : List (Option ℚ)) : Fin prior.length → Option ℚ :=
  fun j => prior.get j

/-- Modelled from the spec: the caller-facing solver checks shapes first —
DimensionMismatch if A's column count differs from Λ's length or A's row
count differs from f's length (never a truncated or padded computation) —
and then runs the solve, surfacing every error to the caller immediately
(spec §4.1, §7). -/
def MAPChecked (A : List (List ℚ)) (f : List ℚ) (σ : ℚ) (prior : List (Option ℚ)) :
    Except SolverError (List ℚ × List (List ℚ)) :=
  if (∀ row ∈ A, row.length = prior.length) ∧ f.length = A.length then
    match MAP (toMatrix A prior.length) (toVec f A.length) σ (toPrior prior) with
    | .ok (yhat, yvar) => .ok (List.ofFn yhat, List.ofFn fun i => List.ofFn fun j => yvar i j)
    | .error e => .error e
  else .error .DimensionMismatch

/-- A singular regularized matrix makes `MAP` fail with `SingularMatrix`. -/
theorem MAP_singular {T N : ℕ} {A : Matrix (Fin T) (Fin N) ℚ} (f : Fin T → ℚ)
    (σ : ℚ) {prior : Fin N → Option ℚ} (hdet : (regM A σ prior).det = 0) :
    MAP A f σ prior = .error .SingularMatrix := by
  unfold regM at hdet
  unfold MAP MAPd
  rw [if_pos hdet]

/-- C6: the checked solver fails with DimensionMismatch whenever a row of A
is not of Λ's length or f's length differs from A's row count, fails with
SingularMatrix whenever the shapes agree but AᵀA + σ²Λ⁻¹ is not invertible,
and an error result is never also a success. -/
theorem MAPChecked_errors (A : List (List ℚ)) (f : List ℚ) (σ : ℚ)
    (prior : List (Option ℚ)) :
    (((∃ row ∈ A, row.length ≠ prior.length) ∨ f.length ≠ A.length) →
        MAPChecked A f σ prior = .error .DimensionMismatch) ∧
      ((∀ row ∈ A, row.length = prior.length) → f.length = A.length →
        (regM (toMatrix A prior.length) σ (toPrior prior)).det = 0 →
        MAPChecked A f σ prior = .error .SingularMatrix) ∧
      (∀ e, MAPChecked A f σ prior = .error e →
        ∀ r, MAPChecked A f σ prior ≠ .ok r) := by
  refine ⟨?_, ?_, ?_⟩
  · intro hbad
    unfold MAPChecked
    rw [if_neg]
    rintro ⟨hall, hlen⟩
    rcases hbad with ⟨row, hmem, hne⟩ | hne
    · exact hne (hall row hmem)
    · exact hne hlen
  · intro hall hlen hdet
    unfold MAPChecked
    rw [if_pos ⟨hall, hlen⟩, MAP_singular _ _ hdet]
  · intro e he r hr
    rw [he] at hr
    exact Except.noConfusion hr

theorem MAPChecked_errors_witness :
    (∃ row ∈ [[(1 : ℚ)]], row.length ≠ ([] : List (Option ℚ)).length) ∧
      MAPChecked [[(1 : ℚ)]] [1] 1 [] = .error .DimensionMismatch ∧
      ((∀ row ∈ [[(0 : ℚ)]], row.length = [some (0 : ℚ)].length) ∧
        [(0 : ℚ)].length = [[(0 : ℚ)]].length ∧
        (regM (toMatrix [[(0 : ℚ)]] 1) 1 (toPrior [some (0 : ℚ)])).det = 0 ∧
        MAPChecked [[(0 : ℚ)]] [0] 1 [some (0 : ℚ)] = .error .SingularMatrix) := by
  have hex : ∃ row ∈ [[(1 : ℚ)]], row.length ≠ ([] : List (Option ℚ)).length :=
    ⟨[(1 : ℚ)], List.mem_singleton.mpr rfl, by simp⟩
  have hall : ∀ row ∈ [[(0 : ℚ)]], row.length = [some (0 : ℚ)].length := by
    intro row hrow
    rw [List.mem_singleton.mp hrow]
    rfl
  have hdet : (regM (toMatrix [[(0 : ℚ)]] 1) 1 (toPrior [some (0 : ℚ)])).det = 0 := by
    rw [Matrix.det_fin_one]
    show regM (toMatrix [[(0 : ℚ)]] 1) 1 (toPrior [some (0 : ℚ)]) 0 0 = 0
    unfold regM regMd toMatrix toPrior priorDiag lamInv
    simp [Matrix.add_apply, Matrix.mul_apply, Matrix.diagonal_apply_eq]
  exact ⟨hex,
    (MAPChecked_errors [[(1 : ℚ)]] [1] 1 []).1 (Or.inl hex),
    hall, rfl, hdet,
    (MAPChecked_errors [[(0 : ℚ)]] [0] 1 [some (0 : ℚ)]).2.1 hall rfl hdet⟩

/-! ### Claim C7: monotonicity of the covariance in the noise level -/

theorem minv_smul {n : ℕ} (a : ℚ) (ha : a ≠ 0) (M : Matrix (Fin n) (Fin n) ℚ)
    (hM : M.det ≠ 0) : minv (a • M) = a⁻¹ • minv M := by
  rw [minv_eq_inv, minv_eq_inv]
  apply Matrix.inv_eq_right_inv
  rw [Matrix.smul_mul, Matrix.mul_smul, smul_smul, mul_inv_cancel₀ ha, one_smul,
    Matrix.mul_nonsing_inv _ (isUnit_iff_ne_zero.mpr hM)]

/-- Evaluation of `MAP` on the 1×1 zero design matrix with unit prior: the
covariance equals the prior variance, for every noise level. -/
theorem MAP_zero_design (σ : ℚ) (hσ : σ ≠ 0) :
    MAP (0 : Matrix (Fin 1) (Fin 1) ℚ) ![0] σ (fun _ => some 1) = .ok (![0], 1) := by
  have hpd : priorDiag σ (fun _ : Fin 1 => some (1 : ℚ)) = fun _ => σ ^ 2 := by
    funext i
    simp [priorDiag, lamInv]
  have hreg : regMd (0 : Matrix (Fin 1) (Fin 1) ℚ) (fun _ : Fin 1 => σ ^ 2)
      = Matrix.diagonal fun _ : Fin 1 => σ ^ 2 := by
    unfold regMd
    rw [Matrix.transpose_zero, Matrix.zero_mul, zero_add]
  have hdet : (Matrix.diagonal fun _ : Fin 1 => σ ^ 2).det = σ ^ 2 := by
    rw [Matrix.det_fin_one, Matrix.diagonal_apply_eq]
  have hdet0 : ¬(Matrix.diagonal fun _ : Fin 1 => σ ^ 2).det = 0 := by
    rw [hdet]
    exact pow_ne_zero 2 hσ
  have hminv : minv (Matrix.diagonal fun _ : Fin 1 => σ ^ 2) = (σ ^ 2)⁻¹ • 1 := by
    unfold minv
    rw [hdet, Matrix.adjugate_fin_one]
  unfold MAP MAPd
  rw [hpd, hreg, if_neg hdet0, hminv]
  have h1 : ((σ ^ 2)⁻¹ • 1 : Matrix (Fin 1) (Fin 1) ℚ) *ᵥ
      ((0 : Matrix (Fin 1) (Fin 1) ℚ)ᵀ *ᵥ ![0]) = ![0] := by
    rw [Matrix.transpose_zero, Matrix.zero_mulVec, Matrix.mulVec_zero]
    funext j
    fin_cases j
    rfl
  have h2 : σ ^ 2 • ((σ ^ 2)⁻¹ • 1 : Matrix (Fin 1) (Fin 1) ℚ) = 1 := by
    rw [smul_smul, mul_inv_cancel₀ (pow_ne_zero 2 hσ), one_smul]
  rw [h1, h2]

/-- C7 refutation: with a degenerate (all-zero) design column and a finite
prior, the covariance diagonal is the same for σ = 1 and σ = 2: it does not
strictly increase with the noise level. -/
theorem MAP_noise_strict_counterexample :
    (0 : ℚ) < 1 ∧ (1 : ℚ) < 2 ∧
      (∀ i (v : ℚ), (fun _ : Fin 1 => some (1 : ℚ)) i = some v → 0 < v) ∧
      MAP (0 : Matrix (Fin 1) (Fin 1) ℚ) ![0] 1 (fun _ => some 1) = .ok (![0], 1) ∧
      MAP (0 : Matrix (Fin 1) (Fin 1) ℚ) ![0] 2 (fun _ => some 1) = .ok (![0], 1) ∧
      ¬((1 : Matrix (Fin 1) (Fin 1) ℚ) 0 0 < (1 : Matrix (Fin 1) (Fin 1) ℚ) 0 0) :=
  ⟨one_pos, one_lt_two, fun _ v h => (Option.some.inj h) ▸ one_pos,
    MAP_zero_design 1 one_ne_zero, MAP_zero_design 2 two_ne_zero, lt_irrefl _⟩

/-- C7 (amended): for fixed A, f, Λ and noise levels 0 < σ₁ < σ₂ on which
the solver succeeds, every diagonal entry of the covariance for σ₂ is at
least the corresponding entry for σ₁ (not strictly greater in general). -/
theorem MAP_noise_monotone {T N : ℕ} (A : Matrix (Fin T) (Fin N) ℚ) (f : Fin T → ℚ)
    (σ₁ σ₂ : ℚ) (prior : Fin N → Option ℚ)
    (hσ₁ : 0 < σ₁) (h12 : σ₁ < σ₂)
    (hprior : ∀ i v, prior i = some v → 0 < v)
    (y₁ : Fin N → ℚ) (V₁ : Matrix (Fin N) (Fin N) ℚ)
    (y₂ : Fin N → ℚ) (V₂ : Matrix (Fin N) (Fin N) ℚ)
    (hok₁ : MAP A f σ₁ prior = .ok (y₁, V₁))
    (hok₂ : MAP A f σ₂ prior = .ok (y₂, V₂)) :
    ∀ i, V₁ i i ≤ V₂ i i := by
  intro i
  have hσ₂ : 0 < σ₂ := lt_trans hσ₁ h12
  have hs₁ : σ₁ ≠ 0 := ne_of_gt hσ₁
  have hs₂ : σ₂ ≠ 0 := ne_of_gt hσ₂
  obtain ⟨hdet₁, hm₁, hV₁⟩ := MAP_ok_inv hok₁
  obtain ⟨hdet₂, hm₂, hV₂⟩ := MAP_ok_inv hok₂
  have hNdef : ∀ σ : ℚ, σ ≠ 0 → (σ ^ 2)⁻¹ • regM A σ prior
      = (σ ^ 2)⁻¹ • (Aᵀ * A) + Matrix.diagonal fun j => lamInv (prior j) := by
    intro σ hσ
    unfold regM regMd
    rw [smul_add]
    have hdd : (σ ^ 2)⁻¹ • Matrix.diagonal (priorDiag σ prior)
        = Matrix.diagonal fun j => lamInv (prior j) := by
      have harg : (σ ^ 2)⁻¹ • priorDiag σ prior = fun j => lamInv (prior j) := by
        funext j
        show (σ ^ 2)⁻¹ * (σ ^ 2 * lamInv (prior j)) = lamInv (prior j)
        rw [← mul_assoc, inv_mul_cancel₀ (pow_ne_zero 2 hσ), one_mul]
      rw [← Matrix.diagonal_smul, harg]
    rw [hdd]
  have hdN₁ : ((σ₁ ^ 2)⁻¹ • regM A σ₁ prior).det ≠ 0 := by
    rw [Matrix.det_smul]
    exact mul_ne_zero (pow_ne_zero _ (inv_ne_zero (pow_ne_zero 2 hs₁))) hdet₁
  have hdN₂ : ((σ₂ ^ 2)⁻¹ • regM A σ₂ prior).det ≠ 0 := by
    rw [Matrix.det_smul]
    exact mul_ne_zero (pow_ne_zero _ (inv_ne_zero (pow_ne_zero 2 hs₂))) hdet₂
  have hpsdN₁ : PosSemidefQ ((σ₁ ^ 2)⁻¹ • regM A σ₁ prior) :=
    psd_smul _ (inv_nonneg.mpr (sq_nonneg σ₁)) (psd_regM A σ₁ prior hprior)
  have hpsdN₂ : PosSemidefQ ((σ₂ ^ 2)⁻¹ • regM A σ₂ prior) :=
    psd_smul _ (inv_nonneg.mpr (sq_nonneg σ₂)) (psd_regM A σ₂ prior hprior)
  have hVN₁ : V₁ = minv ((σ₁ ^ 2)⁻¹ • regM A σ₁ prior) := by
    rw [hV₁, minv_smul _ (inv_ne_zero (pow_ne_zero 2 hs₁)) _ hdet₁, inv_inv]
  have hVN₂ : V₂ = minv ((σ₂ ^ 2)⁻¹ • regM A σ₂ prior) := by
    rw [hV₂, minv_smul _ (inv_ne_zero (pow_ne_zero 2 hs₂)) _ hdet₂, inv_inv]
  set M₁ : Matrix (Fin N) (Fin N) ℚ := (σ₁ ^ 2)⁻¹ • regM A σ₁ prior with hM₁
  set M₂ : Matrix (Fin N) (Fin N) ℚ := (σ₂ ^ 2)⁻¹ • regM A σ₂ prior with hM₂
  have hS : M₁ - M₂ = ((σ₁ ^ 2)⁻¹ - (σ₂ ^ 2)⁻¹) • (Aᵀ * A) := by
    rw [hM₁, hM₂, hNdef σ₁ hs₁, hNdef σ₂ hs₂, sub_smul]
    abel
  have hcoef : 0 ≤ (σ₁ ^ 2)⁻¹ - (σ₂ ^ 2)⁻¹ := by
    have h1 : σ₁ ^ 2 ≤ σ₂ ^ 2 := by nlinarith
    have h2 : (σ₂ ^ 2)⁻¹ ≤ (σ₁ ^ 2)⁻¹ := inv_anti₀ (pow_pos hσ₁ 2) h1
    linarith
  have hSpsd : PosSemidefQ (M₁ - M₂) := by
    rw [hS]
    exact psd_smul _ hcoef (psd_gram A)
  have hX2 : M₂ * minv M₂ = 1 := mul_minv hdN₂
  have hX2' : minv M₂ * M₂ = 1 := minv_mul hdN₂
  have hkey : (M₁ - M₂) * minv M₂ * (M₁ - M₂) + (M₁ - M₂)
      = M₁ * minv M₂ * M₁ - M₁ := by
    have hexp : (M₁ - M₂) * minv M₂ * (M₁ - M₂)
        = M₁ * minv M₂ * M₁ - M₁ * (minv M₂ * M₂) - M₂ * minv M₂ * M₁
          + M₂ * minv M₂ * M₂ := by
      noncomm_ring
    rw [hexp, hX2', hX2, Matrix.mul_one, Matrix.one_mul, Matrix.one_mul]
    abel
  have hpsd_sandwich : PosSemidefQ (M₁ * minv M₂ * M₁ - M₁) := by
    rw [← hkey]
    exact psd_add (psd_congr _ _ hSpsd.1 (psd_minv hpsdN₂ hdN₂)) hSpsd
  have hid2 : minv M₁ * (M₁ * minv M₂ * M₁ - M₁) * minv M₁ = minv M₂ - minv M₁ := by
    have h1 : minv M₁ * M₁ = 1 := minv_mul hdN₁
    have h2 : M₁ * minv M₁ = 1 := mul_minv hdN₁
    have hexp : minv M₁ * (M₁ * minv M₂ * M₁ - M₁) * minv M₁
        = minv M₁ * M₁ * minv M₂ * (M₁ * minv M₁) - minv M₁ * M₁ * minv M₁ := by
      noncomm_ring
    rw [hexp, h1, h2, Matrix.one_mul, Matrix.mul_one, Matrix.one_mul]
  have hfinal : PosSemidefQ (minv M₂ - minv M₁) := by
    rw [← hid2]
    exact psd_congr _ _ (symm_minv hpsdN₁.1) hpsd_sandwich
  have hdiag := psd_diag_nonneg hfinal i
  rw [Matrix.sub_apply] at hdiag
  rw [hVN₁, hVN₂]
  linarith

theorem MAP_noise_monotone_witness :
    (0 : ℚ) < 1 ∧ (1 : ℚ) < 2 ∧
      MAP (1 : Matrix (Fin 1) (Fin 1) ℚ) ![0] 1 (fun _ => none) = .ok (![0], (1 : ℚ) ^ 2 • 1) ∧
      MAP (1 : Matrix (Fin 1) (Fin 1) ℚ) ![0] 2 (fun _ => none) = .ok (![0], (2 : ℚ) ^ 2 • 1) ∧
      ∀ i : Fin 1, ((1 : ℚ) ^ 2 • 1 : Matrix (Fin 1) (Fin 1) ℚ) i i ≤
        ((2 : ℚ) ^ 2 • 1 : Matrix (Fin 1) (Fin 1) ℚ) i i :=
  ⟨one_pos, one_lt_two, MAP_one_none ![0] 1, MAP_one_none ![0] 2,
    MAP_noise_monotone 1 ![0] 1 2 (fun _ => none) one_pos one_lt_two
      (fun _ _ h => Option.noConfusion h) ![0] _ ![0] _
      (MAP_one_none ![0] 1) (MAP_one_none ![0] 2)⟩

/-! ### Claim C8: the concrete identity-matrix scenario -/

/-- C8: on A = I₃, f = [1, 2, 3], σ = 0.1 and an all-infinite prior, the
solver returns ŷ = [1, 2, 3] and Var(ŷ) = diag(0.01, 0.01, 0.01). -/
theorem MAP_identity_scenario :
    MAP (1 : Matrix (Fin 3) (Fin 3) ℚ) ![1, 2, 3] (1 / 10) (fun _ => none) =
      .ok (![1, 2, 3], Matrix.diagonal ![1 / 100, 1 / 100, 1 / 100]) := by
  rw [MAP_one_none ![1, 2, 3] (1 / 10 : ℚ)]
  have hvar : ((1 / 10 : ℚ)) ^ 2 • (1 : Matrix (Fin 3) (Fin 3) ℚ)
      = Matrix.diagonal ![1 / 100, 1 / 100, 1 / 100] := by
    have harg : ((1 / 10 : ℚ)) ^ 2 • (fun _ : Fin 3 => (1 : ℚ))
        = ![1 / 100, 1 / 100, 1 / 100] := by
      funext i
      fin_cases i <;> norm_num
    rw [← Matrix.diagonal_one, ← Matrix.diagonal_smul, harg]
  rw [hvar]

/-! ### Claim C9: out-of-transit masking -/

/-- The occultor/rotation geometry columns as the notebook holds them at the
masking step; `xo` entries live in `WithBot ℚ` since the sentinel `-np.inf`
(`⊥`) is stored in the same array. -/
structure OccGeometry (T : ℕ) : Type where
  xo : Fin T → WithBot ℚ
  yo : Fin T → ℚ
  theta : Fin T → ℚ

/-- Embedding of the notebook masking step `xo[zo < 0] = -np.inf`: put the
occultor at `-∞` wherever it is behind the star. -/
def maskOutOfTransit {T : ℕ} (g : OccGeometry T) (zo : Fin T → ℚ) : OccGeometry T :=
  { g with xo := fun t => if zo t < 0 then ⊥ else g.xo t }

/-- Modelled from the spec: the `starry` flux evaluator (an external
library): with the occultor at `-∞` no occultation is computed and the flux
is the rotation-only flux; otherwise an occultation decrement may apply
(spec §6). -/
def fluxModel {T : ℕ} (rotFlux occTerm : Fin T → ℚ) (xo : Fin T → WithBot ℚ) :
    Fin T → ℚ :=
  fun t => if xo t = ⊥ then rotFlux t else rotFlux t - occTerm t

/-- C9: masking replaces `xo` by `-∞` exactly at the samples with `zo < 0`,
leaves the other `xo` entries and all of `yo` and `theta` unchanged, and on
every masked sample the modelled flux is the rotation-only flux. -/
theorem mask_out_of_transit_spec {T : ℕ} (g : OccGeometry T) (zo : Fin T → ℚ) :
    (∀ t, zo t < 0 → (maskOutOfTransit g zo).xo t = ⊥) ∧
      (∀ t, ¬zo t < 0 → (maskOutOfTransit g zo).xo t = g.xo t) ∧
      (maskOutOfTransit g zo).yo = g.yo ∧
      (maskOutOfTransit g zo).theta = g.theta ∧
      (∀ rotFlux occTerm t, zo t < 0 →
        fluxModel rotFlux occTerm (maskOutOfTransit g zo).xo t = rotFlux t) := by
  refine ⟨fun t ht => ?_, fun t ht => ?_, rfl, rfl, fun rotFlux occTerm t ht => ?_⟩
  · simp [maskOutOfTransit, ht]
  · simp [maskOutOfTransit, ht]
  · have hx : (maskOutOfTransit g zo).xo t = ⊥ := by simp [maskOutOfTransit, ht]
    simp [fluxModel, hx]

theorem mask_out_of_transit_witness :
    (maskOutOfTransit ⟨![((2 : ℚ) : WithBot ℚ), ((3 : ℚ) : WithBot ℚ)], ![4, 5], ![6, 7]⟩
        ![-1, 1]).xo 0 = ⊥ ∧
      (maskOutOfTransit ⟨![((2 : ℚ) : WithBot ℚ), ((3 : ℚ) : WithBot ℚ)], ![4, 5], ![6, 7]⟩
        ![-1, 1]).xo 1 = ((3 : ℚ) : WithBot ℚ) ∧
      fluxModel ![10, 20] ![1, 2]
        (maskOutOfTransit ⟨![((2 : ℚ) : WithBot ℚ), ((3 : ℚ) : WithBot ℚ)], ![4, 5], ![6, 7]⟩
          ![-1, 1]).xo 0 = 10 := by
  have h := mask_out_of_transit_spec
    (⟨![((2 : ℚ) : WithBot ℚ), ((3 : ℚ) : WithBot ℚ)], ![4, 5], ![6, 7]⟩ : OccGeometry 2)
    ![-1, 1]
  refine ⟨h.1 0 (by norm_num), ?_, h.2.2.2.2 ![10, 20] ![1, 2] 0 (by norm_num)⟩
  rw [h.2.1 1 (by norm_num)]
  rfl

/-! ### Claim C10: the notebook prior vector `lam` -/

/-- Embedding of `power_true[l] = np.sum(map[l, :] ** 2)`: the degree-l
power, the sum of squares of the 2l+1 coefficients of orders m = -l..l.
The true map's coefficients are external random draws, so the coefficient
table is a parameter. -/
def power_true (coeffs : ℕ → ℤ → ℚ) (l : ℕ) : ℚ :=
  ∑ m ∈ Finset.Icc (-(l : ℤ)) (l : ℤ), coeffs l m ^ 2

/-- Embedding of
`lam = np.array([power_true[l] for l in range(lmax + 1) for m in range(-l, l + 1)])`:
each degree l appends `range(-l, l + 1)`, that is 2l+1 copies, of the
degree-l power. -/
def lamArray (lmax : ℕ) (p : ℕ → ℚ) : List ℚ :=
  (List.range (lmax + 1)).flatMap fun l => List.replicate (2 * l + 1) (p l)

/-- Embedding of the subsequent `lam[0] = np.inf`, entries as `Option ℚ`
with `none` = `+∞`. -/
def lam (lmax : ℕ) (p : ℕ → ℚ) : List (Option ℚ) :=
  ((lamArray lmax p).map some).set 0 none

theorem lamArray_succ (n : ℕ) (p : ℕ → ℚ) :
    lamArray (n + 1) p = lamArray n p ++ List.replicate (2 * (n + 1) + 1) (p (n + 1)) := by
  unfold lamArray
  rw [List.range_succ, List.flatMap_append, List.flatMap_singleton]

theorem lamArray_length (lmax : ℕ) (p : ℕ → ℚ) :
    (lamArray lmax p).length = (lmax + 1) ^ 2 := by
  induction lmax with
  | zero => rfl
  | succ n ih =>
    rw [lamArray_succ, List.length_append, ih, List.length_replicate]
    ring

theorem lamArray_getElem? (p : ℕ → ℚ) : ∀ lmax l k : ℕ, l ≤ lmax → k ≤ 2 * l →
    (lamArray lmax p)[l ^ 2 + k]? = some (p l) := by
  intro lmax
  induction lmax with
  | zero =>
    intro l k hl hk
    have hl0 : l = 0 := Nat.le_zero.mp hl
    subst hl0
    have hk0 : k = 0 := Nat.le_zero.mp (by simpa using hk)
    subst hk0
    rfl
  | succ n ih =>
    intro l k hl hk
    rw [lamArray_succ]
    rcases Nat.lt_or_ge l (n + 1) with hcase | hcase
    · have hl' : l ≤ n := Nat.lt_succ_iff.mp hcase
      have hidx : l ^ 2 + k < (lamArray n p).length := by
        rw [lamArray_length]
        have hsq : (l + 1) ^ 2 = l ^ 2 + 2 * l + 1 := by ring
        have h2 : (l + 1) ^ 2 ≤ (n + 1) ^ 2 := Nat.pow_le_pow_left (by omega) 2
        omega
      rw [List.getElem?_append_left hidx]
      exact ih l k hl' hk
    · have hl1 : l = n + 1 := le_antisymm hl hcase
      subst hl1
      have hge : (lamArray n p).length ≤ (n + 1) ^ 2 + k := by
        rw [lamArray_length]
        omega
      rw [List.getElem?_append_right hge, lamArray_length,
        List.getElem?_replicate_of_lt (by omega)]

/-- C10: the notebook prior `lam` has length (lmax+1)²; its entry 0 is +∞;
for 1 ≤ l ≤ lmax and -l ≤ m ≤ l the entry at index l²+l+m is
power_true[l], the degree-l sum of squares of the true map's coefficients;
hence every finite entry is nonnegative and entries of one degree agree. -/
theorem lam_spec (lmax : ℕ) (coeffs : ℕ → ℤ → ℚ) :
    (lam lmax (power_true coeffs)).length = (lmax + 1) ^ 2 ∧
      (lam lmax (power_true coeffs)).getD 0 (some 0) = none ∧
      (∀ (l : ℕ) (m : ℤ), 1 ≤ l → l ≤ lmax → -(l : ℤ) ≤ m → m ≤ (l : ℤ) →
        (lam lmax (power_true coeffs)).getD ((l : ℤ) ^ 2 + (l : ℤ) + m).toNat none
          = some (power_true coeffs l)) ∧
      (∀ o ∈ lam lmax (power_true coeffs), ∀ v, o = some v → 0 ≤ v) ∧
      (∀ (l : ℕ) (m m' : ℤ), 1 ≤ l → l ≤ lmax → -(l : ℤ) ≤ m → m ≤ (l : ℤ) →
        -(l : ℤ) ≤ m' → m' ≤ (l : ℤ) →
        (lam lmax (power_true coeffs)).getD ((l : ℤ) ^ 2 + (l : ℤ) + m).toNat none
          = (lam lmax (power_true coeffs)).getD ((l : ℤ) ^ 2 + (l : ℤ) + m').toNat none) := by
  have hlen : (lam lmax (power_true coeffs)).length = (lmax + 1) ^ 2 := by
    unfold lam
    rw [List.length_set, List.length_map, lamArray_length]
  have hzero : (lam lmax (power_true coeffs)).getD 0 (some 0) = none := by
    have h0 : 0 < ((lamArray lmax (power_true coeffs)).map some).length := by
      rw [List.length_map, lamArray_length]
      positivity
    unfold lam
    rw [List.getD_eq_getElem?_getD, List.getElem?_set_self h0]
    rfl
  have hkey : ∀ (l : ℕ) (m : ℤ), 1 ≤ l → l ≤ lmax → -(l : ℤ) ≤ m → m ≤ (l : ℤ) →
      (lam lmax (power_true coeffs)).getD ((l : ℤ) ^ 2 + (l : ℤ) + m).toNat none
        = some (power_true coeffs l) := by
    intro l m h1 hl hm1 hm2
    have hcast : ((l : ℤ)) ^ 2 = ((l ^ 2 : ℕ) : ℤ) := by push_cast; ring
    have hidx : ((l : ℤ) ^ 2 + (l : ℤ) + m).toNat = l ^ 2 + ((l : ℤ) + m).toNat := by
      rw [hcast]
      omega
    have hk2 : ((l : ℤ) + m).toNat ≤ 2 * l := by omega
    have hsq1 : 1 ≤ l ^ 2 := Nat.one_le_pow 2 l (by omega)
    unfold lam
    rw [hidx, List.getD_eq_getElem?_getD, List.getElem?_set_ne (by omega),
      List.getElem?_map, lamArray_getElem? (power_true coeffs) lmax l _ hl hk2]
    rfl
  have hnonneg : ∀ o ∈ lam lmax (power_true coeffs), ∀ v, o = some v → 0 ≤ v := by
    intro o ho v hv
    rcases List.mem_or_eq_of_mem_set ho with hmem | hnone
    · obtain ⟨w, hw, rfl⟩ := List.mem_map.mp hmem
      obtain ⟨l', _, hw'⟩ := List.mem_flatMap.mp hw
      have hwval : w = power_true coeffs l' := List.eq_of_mem_replicate hw'
      have hvw : v = w := (Option.some.inj hv).symm
      rw [hvw, hwval]
      exact Finset.sum_nonneg fun m _ => sq_nonneg _
    · rw [hnone] at hv
      exact Option.noConfusion hv
  refine ⟨hlen, hzero, hkey, hnonneg, ?_⟩
  intro l m m' h1 hl hm1 hm2 hm1' hm2'
  rw [hkey l m h1 hl hm1 hm2, hkey l m' h1 hl hm1' hm2']

theorem lam_spec_witness :
    (lam 1 (power_true fun l m => (l : ℚ) + m)).getD
        (((1 : ℕ) : ℤ) ^ 2 + ((1 : ℕ) : ℤ) + 0).toNat none
      = some (power_true (fun l m => (l : ℚ) + m) 1) :=
  (lam_spec 1 fun l m => (l : ℚ) + m).2.2.1 1 0 (by norm_num) (by norm_num)
    (by norm_num) (by norm_num)

end Starspot
